import Mathlib

/-!
Shallow embedding of the Kubermatic reconciliation engine:
the per-kind ensure loops of `api/pkg/controller/cluster/resources.go`
and the project synchronizer of
`pkg/controller/master-controller-manager/project-synchronizer/controller.go`.

Go maps `map[string]string` / `map[string][]byte` are modelled as
association lists `List (String × String)` (an iteration order of the map);
Go byte strings are modelled as `String` with explicit UTF-8 byte rendering
where the code hashes bytes.  Kubernetes API stores are modelled as
`String → Option α` keyed by object name, and every live write (Create,
Update, Patch, Delete) is recorded as an `Event` so that theorems can speak
about which writes a pass issues.
-/

set_option maxRecDepth 100000

namespace Kubermatic

/-! ### Bytes and Go string ordering -/

/-- UTF-8 encoding of a single character, as the list of its byte values.
Go strings are byte sequences; the checksum code hashes these bytes. -/
def utf8Bytes (c : Char) : List Nat :=
  let n := c.toNat
  if n < 128 then [n]
  else if n < 2048 then [192 ||| (n >>> 6), 128 ||| (n &&& 63)]
  else if n < 65536 then [224 ||| (n >>> 12), 128 ||| ((n >>> 6) &&& 63), 128 ||| (n &&& 63)]
  else [240 ||| (n >>> 18), 128 ||| ((n >>> 12) &&& 63), 128 ||| ((n >>> 6) &&& 63), 128 ||| (n &&& 63)]

/-- The UTF-8 bytes of a string. -/
def strBytes (s : String) : List Nat := s.data.flatMap utf8Bytes

/-- Lexicographic comparison of character lists by code point.  For valid
Unicode text this coincides with Go's byte-lexicographic string order,
because UTF-8 encoding preserves the code-point order. -/
def charListLe : List Char → List Char → Bool
  | [], _ => true
  | _ :: _, [] => false
  | a :: as, b :: bs =>
    if a.toNat < b.toNat then true
    else if b.toNat < a.toNat then false
    else charListLe as bs

/-- Go's `<=` on strings (byte-lexicographic), as a proposition. -/
def goStrLeP (a b : String) : Prop := charListLe a.data b.data = true

instance : DecidableRel goStrLeP := fun _ _ => instDecidableEqBool _ _

/-- `sort.Strings`: sort a string slice ascending in Go's string order.
(Implemented by insertion sort; `sort.Strings` is extensionally the same
function, since sorted permutations under a total antisymmetric order are
unique.) -/
def sortStrings (l : List String) : List String := l.insertionSort goStrLeP

/-! ### CRC-32 (IEEE) -/

/-- One reflected CRC-32 bit step with the IEEE polynomial 0xEDB88320. -/
def crc32Round (c : Nat) : Nat :=
  if c % 2 = 1 then (c / 2) ^^^ 0xEDB88320 else c / 2

/-- Iterate the CRC bit step. -/
def crc32Bits : Nat → Nat → Nat
  | 0, c => c
  | n + 1, c => crc32Bits n (crc32Round c)

/-- Fold one byte into the running CRC-32. -/
def crc32UpdateByte (c b : Nat) : Nat := crc32Bits 8 (c ^^^ (b % 256))

/-- `crc32.ChecksumIEEE`: CRC-32 of a byte sequence with the IEEE
polynomial (initial value and final value complemented). -/
def crc32IEEE (bytes : List Nat) : Nat :=
  (bytes.foldl crc32UpdateByte 0xFFFFFFFF) ^^^ 0xFFFFFFFF

/-- Decimal digits of a natural number (fuel-bounded; 12 digits cover
every 32-bit value). -/
def decimalAux : Nat → Nat → List Char
  | 0, _ => []
  | fuel + 1, n =>
    if n < 10 then [Char.ofNat (48 + n)]
    else decimalAux fuel (n / 10) ++ [Char.ofNat (48 + n % 10)]

/-- `fmt.Sprintf "%v"` on an unsigned integer: its decimal string. -/
def natDecimal (n : Nat) : String := String.mk (decimalAux 12 n)

/-! ### The checksum functions (`resources.go` lines 703-728) -/

/-- `getChecksumForStringSlice`: sort the strings, concatenate them into
one buffer, CRC-32 (IEEE) the bytes, format as a decimal string. -/
def getChecksumForStringSlice (stringSlice : List String) : String :=
  natDecimal (crc32IEEE (strBytes (String.join (sortStrings stringSlice))))

/-- `getChecksumForMapStringByteSlice`: render every entry as `key:value`
and checksum the resulting slice.  The map is modelled as an association
list in iteration order. -/
def getChecksumForMapStringByteSlice (data : List (String × String)) : String :=
  getChecksumForStringSlice (data.map (fun kv => kv.1 ++ ":" ++ kv.2))

/-- `getChecksumForMapStringString`: render every entry as `key:value`
and checksum the resulting slice. -/
def getChecksumForMapStringString (data : List (String × String)) : String :=
  getChecksumForStringSlice (data.map (fun kv => kv.1 ++ ":" ++ kv.2))

/-! ### Annotation keys and map helpers -/

def annotationPrefix : String := "kubermatic.io/"

def lastAppliedConfigAnnotationKey : String := annotationPrefix ++ "last-applied-configuration"

def checksumAnnotationKey : String := annotationPrefix ++ "checksum"

/-- Go map assignment `m[k] = v` on an association list. -/
def setKV (l : List (String × String)) (k v : String) : List (String × String) :=
  (k, v) :: l.filter (fun kv => kv.1 ≠ k)

/-- Go map lookup `m[k]` (with its `ok` flag as `Option`). -/
def lookupKV (l : List (String × String)) (k : String) : Option String :=
  (l.find? (fun kv => kv.1 = k)).map (fun kv => kv.2)

/-! ### Stores and write events -/

/-- A per-kind object store keyed by object name (both the cached lister
view and the live API, which the ensure loops keep in sync within a pass). -/
def Store (α : Type) : Type := String → Option α

def Store.empty {α : Type} : Store α := fun _ => none

def Store.set {α : Type} (s : Store α) (n : String) (a : α) : Store α :=
  fun m => if m = n then some a else s m

def Store.del {α : Type} (s : Store α) (n : String) : Store α :=
  fun m => if m = n then none else s m

/-- A live write issued by an ensure pass. -/
inductive Event where
  | create (name : String)
  | update (name : String)
  | patch (name : String) (body : String)
  | deleteForeground (name : String)
deriving DecidableEq

/-- Result of one ensure pass: the store afterwards, the writes issued in
order, and the Go return value. -/
structure PassResult (α : Type) where
  store : Store α
  events : List Event
  res : Except String Unit

/-! ### Object shapes -/

/-- A structurally compared object (ServiceAccount, Role, RoleBinding,
ClusterRoleBinding, Service, PodDisruptionBudget): a name plus an opaque
payload; `equality.Semantic.DeepEqual` is structure equality. -/
structure KObj where
  name : String
  payload : String
deriving DecidableEq

/-- A Deployment or StatefulSet: name, the immutable
`Spec.Selector.MatchLabels`, and the rest of the spec. -/
structure Workload where
  name : String
  matchLabels : List (String × String)
  spec : String
deriving DecidableEq

/-- A Secret or ConfigMap: name, data payload, annotations. -/
structure KVObj where
  name : String
  data : List (String × String)
  annotations : List (String × String)
deriving DecidableEq

def setAnn (o : KVObj) (k v : String) : KVObj :=
  { o with annotations := setKV o.annotations k v }

def setName (o : KVObj) (n : String) : KVObj :=
  { o with name := n }

/-! ### Structural ensure loop (`ensureServices`, representative of all
structurally compared kinds) -/

/-- `ensureServices` (`resources.go` 277-320): per creator, build the
desired object from `nil`, read the cache by its name; if absent, Create;
if present, rebuild from a copy of the existing object, skip when
deep-equal, else Update. -/
def ensureServices (creators : List (Option KObj → KObj)) (store : Store KObj) :
    PassResult KObj :=
  match creators with
  | [] => ⟨store, [], .ok ()⟩
  | create :: rest =>
    let d0 := create none
    match store d0.name with
    | none =>
      let r := ensureServices rest (store.set d0.name d0)
      ⟨r.store, .create d0.name :: r.events, r.res⟩
    | some existing =>
      let d := create (some existing)
      if d = existing then ensureServices rest store
      else
        let r := ensureServices rest (store.set d.name d)
        ⟨r.store, .update d.name :: r.events, r.res⟩

/-! ### Deployments / StatefulSets with the immutable-selector guard -/

/-- `ensureDeployments` (`resources.go` 521-570): like the structural loop
but if the rebuilt object differs from the existing one and their
`Spec.Selector.MatchLabels` differ, issue a foreground-cascading Delete and
return from the whole pass immediately (recreation happens on next sync). -/
def ensureDeployments (creators : List (Option Workload → Workload)) (store : Store Workload) :
    PassResult Workload :=
  match creators with
  | [] => ⟨store, [], .ok ()⟩
  | create :: rest =>
    let d0 := create none
    match store d0.name with
    | none =>
      let r := ensureDeployments rest (store.set d0.name d0)
      ⟨r.store, .create d0.name :: r.events, r.res⟩
    | some existing =>
      let d := create (some existing)
      if d = existing then ensureDeployments rest store
      else if d.matchLabels ≠ existing.matchLabels then
        ⟨store.del d.name, [.deleteForeground d.name], .ok ()⟩
      else
        let r := ensureDeployments rest (store.set d.name d)
        ⟨r.store, .update d.name :: r.events, r.res⟩

/-- `ensureStatefulSets` (`resources.go` 738-787): textually the same
algorithm as `ensureDeployments`, over the StatefulSet creators. -/
def ensureStatefulSets (creators : List (Option Workload → Workload)) (store : Store Workload) :
    PassResult Workload :=
  match creators with
  | [] => ⟨store, [], .ok ()⟩
  | create :: rest =>
    let d0 := create none
    match store d0.name with
    | none =>
      let r := ensureStatefulSets rest (store.set d0.name d0)
      ⟨r.store, .create d0.name :: r.events, r.res⟩
    | some existing =>
      let d := create (some existing)
      if d = existing then ensureStatefulSets rest store
      else if d.matchLabels ≠ existing.matchLabels then
        ⟨store.del d.name, [.deleteForeground d.name], .ok ()⟩
      else
        let r := ensureStatefulSets rest (store.set d.name d)
        ⟨r.store, .update d.name :: r.events, r.res⟩

/-! ### Checksum-gated ensure loops -/

/-- `ensureSecretsV2` (`resources.go` 582-634): per (name, creator) pair,
read the cache by the map key; if absent, build from `nil`, stamp the
checksum annotation over the data, Create; if present, rebuild from a copy,
stamp the checksum annotation, skip when the existing object carries a
checksum annotation equal to the recomputed one, else Update. -/
def ensureSecretsV2 (creators : List (String × (Option KVObj → KVObj))) (store : Store KVObj) :
    PassResult KVObj :=
  match creators with
  | [] => ⟨store, [], .ok ()⟩
  | (name, create) :: rest =>
    match store name with
    | none =>
      let se := create none
      let se := setAnn se checksumAnnotationKey (getChecksumForMapStringByteSlice se.data)
      let r := ensureSecretsV2 rest (store.set se.name se)
      ⟨r.store, .create se.name :: r.events, r.res⟩
    | some existing =>
      let se := create (some existing)
      let se := setAnn se checksumAnnotationKey (getChecksumForMapStringByteSlice se.data)
      if lookupKV existing.annotations checksumAnnotationKey = lookupKV se.annotations checksumAnnotationKey then
        ensureSecretsV2 rest store
      else
        let r := ensureSecretsV2 rest (store.set se.name se)
        ⟨r.store, .update se.name :: r.events, r.res⟩

/-- `ensureConfigMaps` (`resources.go` 646-701): same checksum gate as
`ensureSecretsV2`, except the object is built (and annotated) before the
cache read, and the read is keyed by the built object's name. -/
def ensureConfigMaps (creators : List (Option KVObj → KVObj)) (store : Store KVObj) :
    PassResult KVObj :=
  match creators with
  | [] => ⟨store, [], .ok ()⟩
  | create :: rest =>
    let cm0 := create none
    let cm0 := setAnn cm0 checksumAnnotationKey (getChecksumForMapStringString cm0.data)
    match store cm0.name with
    | none =>
      let r := ensureConfigMaps rest (store.set cm0.name cm0)
      ⟨r.store, .create cm0.name :: r.events, r.res⟩
    | some existing =>
      let cm := create (some existing)
      let cm := setAnn cm checksumAnnotationKey (getChecksumForMapStringString cm.data)
      if lookupKV existing.annotations checksumAnnotationKey = lookupKV cm.annotations checksumAnnotationKey then
        ensureConfigMaps rest store
      else
        let r := ensureConfigMaps rest (store.set cm.name cm)
        ⟨r.store, .update cm.name :: r.events, r.res⟩

/-! ### Legacy ordered-Secrets path -/

/-- A legacy secret generator `gen(cluster, existingOrNil)`:
returns the generated secret and its desired JSON, or an error. -/
def SecretGen : Type := Option KVObj → Except String (KVObj × String)

/-- External collaborators of the legacy path that the engine only calls:
JSON marshalling, the three-way JSON merge-patch builder, the API server's
application of a merge patch, and the cached lister's visibility of a
freshly created secret at each 100 ms poll tick. -/
structure SecretsDeps where
  marshal : KVObj → String
  threeWay : String → String → String → String
  applyPatch : KVObj → String → KVObj
  visible : String → Nat → Bool

/-- `wait.Poll(interval, timeout, cond)`: check the condition at each
interval tick until the timeout; true iff some tick succeeds. -/
def waitPoll (interval timeout : Nat) (cond : Nat → Bool) : Bool :=
  ((List.range (timeout / interval)).map (fun i => i + 1)).any cond

/-- The value of the last-applied annotation, or the empty string when the
annotation is absent (Go's zero value). -/
def annOrEmpty (o : KVObj) (k : String) : String :=
  (lookupKV o.annotations k).getD ""

/-- `getPatch` (`resources.go` 159-176): a three-way JSON merge patch from
(last-applied annotation of the current object, marshalled update object,
marshalled current object). -/
def getPatch (deps : SecretsDeps) (currentObj updateObj : KVObj) : String :=
  deps.threeWay (annOrEmpty currentObj lastAppliedConfigAnnotationKey)
    (deps.marshal updateObj) (deps.marshal currentObj)

/-- One iteration of the `ensureSecrets` loop (`resources.go` 207-259) for
the entry `(name, gen)`: generate (passing the existing secret when the
lister has one), stamp the last-applied annotation and the name; if absent,
Create and poll the lister (100 ms interval, 30 s timeout) until visible,
timeout being fatal; if present, skip when the stored last-applied
annotation equals the fresh JSON, else issue a merge Patch built by
`getPatch`. -/
def ensureSecretsOp (deps : SecretsDeps) (store : Store KVObj) (name : String)
    (gen : SecretGen) : PassResult KVObj :=
  match store name with
  | none =>
    match gen none with
    | .error e => ⟨store, [], .error ("failed to generate Secret " ++ name ++ ": " ++ e)⟩
    | .ok (g, currentJSON) =>
      let g := setName (setAnn g lastAppliedConfigAnnotationKey currentJSON) name
      if waitPoll 100 30000 (deps.visible name) then
        ⟨store.set g.name g, [.create g.name], .ok ()⟩
      else
        ⟨store.set g.name g, [.create g.name],
          .error ("failed waiting for secret " ++ name ++ " to exist in the lister")⟩
  | some existingSecret =>
    match gen (some existingSecret) with
    | .error e => ⟨store, [], .error ("failed to generate Secret " ++ name ++ ": " ++ e)⟩
    | .ok (g, currentJSON) =>
      let g := setName (setAnn g lastAppliedConfigAnnotationKey currentJSON) name
      if lookupKV existingSecret.annotations lastAppliedConfigAnnotationKey = some currentJSON then
        ⟨store, [], .ok ()⟩
      else
        let patch := getPatch deps existingSecret g
        ⟨store.set name (deps.applyPatch existingSecret patch), [.patch name patch], .ok ()⟩

/-- `ensureSecrets` (`resources.go` 179-262): process the declared entries
strictly in list order, stopping at the first error. -/
def ensureSecrets (deps : SecretsDeps) (ops : List (String × SecretGen)) (store : Store KVObj) :
    PassResult KVObj :=
  match ops with
  | [] => ⟨store, [], .ok ()⟩
  | (name, gen) :: rest =>
    let r := ensureSecretsOp deps store name gen
    match r.res with
    | .error e => ⟨r.store, r.events, .error e⟩
    | .ok () =>
      let r2 := ensureSecrets deps rest r.store
      ⟨r2.store, r.events ++ r2.events, r2.res⟩

/-! ### Project synchronizer (`controller.go`) -/

/-- Outcome of a single Kubernetes API call against a cluster. -/
inductive SeedCallResult where
  | ok
  | notFound
  | err (msg : String)
deriving DecidableEq

/-- `ctrlruntimeclient.IgnoreNotFound`: NotFound is not an error. -/
def IgnoreNotFound : SeedCallResult → Except String Unit
  | .ok => .ok ()
  | .notFound => .ok ()
  | .err m => .error m

/-- The control-plane Project: name, whether its deletion timestamp is
set, and its finalizer list. -/
structure Project where
  name : String
  deletionTimestamp : Bool
  finalizers : List String
deriving DecidableEq

def SeedProjectCleanupFinalizer : String := "kubermatic.io/cleanup-seed-projects"

/-- The error wrapping of `syncAllSeeds` (`controller.go` 176). -/
def wrapSeedErr (seedName msg : String) : String :=
  "failed syncing project for seed " ++ seedName ++ ": " ++ msg

/-- `syncAllSeeds` (`controller.go` 169-181): run the action against every
registered seed in iteration order, returning at the first failure with
the error wrapped with that seed's name.  The first component records
which seeds the action was attempted on, in order. -/
def syncAllSeeds {α : Type} (seeds : List (String × α))
    (action : α → Except String Unit) : List String × Except String Unit :=
  match seeds with
  | [] => ([], .ok ())
  | (seedName, seedClient) :: rest =>
    match action seedClient with
    | .error e => ([seedName], .error (wrapSeedErr seedName e))
    | .ok () =>
      let r := syncAllSeeds rest action
      (seedName :: r.1, r.2)

/-- `kuberneteshelper.RemoveFinalizer`. -/
def removeFinalizer (p : Project) (f : String) : Project :=
  { p with finalizers := p.finalizers.filter (fun g => g ≠ f) }

/-- `handleDeletion` (`controller.go` 148-167): delete the project on every
seed (NotFound tolerated); only if that succeeds for every seed, remove the
cleanup finalizer from the control-plane copy (absence tolerated) by a
Patch whose NotFound outcome is ignored.  Each seed's Delete outcome and
the master Patch outcome are supplied by the environment; the returned
Project is the persisted control-plane copy after the pass. -/
def handleDeletion (project : Project) (seeds : List (String × SeedCallResult))
    (masterPatch : SeedCallResult) : Project × Except String Unit :=
  match (syncAllSeeds seeds IgnoreNotFound).2 with
  | .error e => (project, .error e)
  | .ok () =>
    if SeedProjectCleanupFinalizer ∈ project.finalizers then
      match masterPatch with
      | .err m =>
        (project, .error ("failed to remove project finalizer " ++
          SeedProjectCleanupFinalizer ++ ": " ++ m))
      | _ => (removeFinalizer project SeedProjectCleanupFinalizer, .ok ())
    else (project, .ok ())

/-- `enqueueAllProjects` (`controller.go` 183-199): map a seed event to one
reconcile request per listed Project; if listing fails the error is only
logged and the loop runs over the empty list, so no requests are produced
and no error is propagated. -/
def enqueueAllProjects (listResult : Except String (List Project)) : List String :=
  let items : List Project :=
    match listResult with
    | .error _ => []
    | .ok l => l
  items.map (fun p => p.name)

/-! ### Helper lemmas for the synchronizer -/

/-- `syncAllSeeds` with NotFound-tolerant deletes succeeds exactly when
every seed's Delete returned success or NotFound. -/
theorem syncAllSeeds_ok_iff (seeds : List (String × SeedCallResult)) :
    (syncAllSeeds seeds IgnoreNotFound).2 = .ok () ↔
      ∀ sr ∈ seeds, sr.2 = .ok ∨ sr.2 = .notFound := by
  induction seeds with
  | nil => simp [syncAllSeeds]
  | cons hd tl ih =>
    obtain ⟨n, r⟩ := hd
    cases r with
    | ok => simpa [syncAllSeeds, IgnoreNotFound] using ih
    | notFound => simpa [syncAllSeeds, IgnoreNotFound] using ih
    | err m =>
      constructor
      · intro h
        simp [syncAllSeeds, IgnoreNotFound] at h
      · intro h
        exfalso
        rcases h (n, .err m) (List.mem_cons_self _ _) with h1 | h1 <;> simp at h1

/-! ### C1, C6, C10 -/

/-- C1: for every reconcile of a Project whose deletion timestamp is set
(and whose control-plane finalizer patch does not itself fail), the cleanup
finalizer is removed from the control-plane copy if and only if the Delete
on every registered seed returned success or NotFound in that pass; on any
other seed error the finalizer is left in place and the error is returned
to the caller. -/
theorem handleDeletion_finalizer_iff
    (project : Project) (seeds : List (String × SeedCallResult)) (masterPatch : SeedCallResult)
    (_hdel : project.deletionTimestamp = true)
    (hpatch : masterPatch = .ok ∨ masterPatch = .notFound) :
    ((SeedProjectCleanupFinalizer ∉ (handleDeletion project seeds masterPatch).1.finalizers ∧
        (handleDeletion project seeds masterPatch).2 = .ok ()) ↔
      ∀ sr ∈ seeds, sr.2 = .ok ∨ sr.2 = .notFound) ∧
    (¬ (∀ sr ∈ seeds, sr.2 = .ok ∨ sr.2 = .notFound) →
      (handleDeletion project seeds masterPatch).1 = project ∧
        ∃ e, (handleDeletion project seeds masterPatch).2 = .error e) := by
  cases hsync : (syncAllSeeds seeds IgnoreNotFound).2 with
  | error e =>
    have hfail : ¬ ∀ sr ∈ seeds, sr.2 = .ok ∨ sr.2 = .notFound := by
      intro hall
      rw [(syncAllSeeds_ok_iff seeds).mpr hall] at hsync
      exact Except.noConfusion hsync
    constructor
    · constructor
      · intro ⟨_, hres⟩
        simp [handleDeletion, hsync] at hres
      · intro hall
        exact absurd hall hfail
    · intro _
      refine ⟨by simp [handleDeletion, hsync], e, by simp [handleDeletion, hsync]⟩
  | ok u =>
    cases u
    have hall : ∀ sr ∈ seeds, sr.2 = .ok ∨ sr.2 = .notFound :=
      (syncAllSeeds_ok_iff seeds).mp hsync
    constructor
    · constructor
      · intro _
        exact hall
      · intro _
        by_cases hfin : SeedProjectCleanupFinalizer ∈ project.finalizers
        · rcases hpatch with rfl | rfl <;>
            simp [handleDeletion, hsync, hfin, removeFinalizer, List.mem_filter]
        · simp [handleDeletion, hsync, hfin]
    · intro hnall
      exact absurd hall hnall

/-- C1 witness: a concrete deleting Project over one succeeding and one
NotFound seed; the finalizer is removed and the pass succeeds. -/
theorem handleDeletion_finalizer_iff_witness :
    (⟨"p", true, [SeedProjectCleanupFinalizer]⟩ : Project).deletionTimestamp = true ∧
    ((SeedProjectCleanupFinalizer ∉
        (handleDeletion ⟨"p", true, [SeedProjectCleanupFinalizer]⟩
          [("alpha", .ok), ("beta", .notFound)] .ok).1.finalizers ∧
        (handleDeletion ⟨"p", true, [SeedProjectCleanupFinalizer]⟩
          [("alpha", .ok), ("beta", .notFound)] .ok).2 = .ok ()) ↔
      ∀ sr ∈ ([("alpha", .ok), ("beta", .notFound)] : List (String × SeedCallResult)),
        sr.2 = .ok ∨ sr.2 = .notFound) :=
  ⟨rfl,
    (handleDeletion_finalizer_iff ⟨"p", true, [SeedProjectCleanupFinalizer]⟩
      [("alpha", .ok), ("beta", .notFound)] .ok rfl (Or.inl rfl)).1⟩

/-- C6: during fan-out over the registered seeds, the first seed whose
action fails causes the pass to return immediately with that seed's error
wrapped with its identifier; seeds after it are not attempted, and in the
deletion pass no finalizer removal happens on such a failure. -/
theorem syncAllSeeds_first_error :
    (∀ (α : Type) (action : α → Except String Unit)
        (pre : List (String × α)) (seedName : String) (x : α)
        (post : List (String × α)) (e : String),
      (∀ s ∈ pre, action s.2 = .ok ()) →
      action x = .error e →
      syncAllSeeds (pre ++ (seedName, x) :: post) action =
        (pre.map Prod.fst ++ [seedName], .error (wrapSeedErr seedName e))) ∧
    (∀ (project : Project) (seeds : List (String × SeedCallResult))
        (masterPatch : SeedCallResult),
      (∃ sr ∈ seeds, ∃ m, sr.2 = .err m) →
      (handleDeletion project seeds masterPatch).1 = project) := by
  constructor
  · intro α action pre seedName x post e hpre hx
    induction pre with
    | nil => simp [syncAllSeeds, hx]
    | cons hd tl ih =>
      obtain ⟨n, a⟩ := hd
      have hhd : action a = .ok () := hpre (n, a) (List.mem_cons_self _ _)
      have htl : ∀ s ∈ tl, action s.2 = .ok () := fun s hs => hpre s (List.mem_cons_of_mem _ hs)
      simp [syncAllSeeds, hhd, ih htl]
  · intro project seeds masterPatch ⟨sr, hmem, m, herr⟩
    have hnall : ¬ ∀ s ∈ seeds, s.2 = .ok ∨ s.2 = .notFound := by
      intro hall
      rcases hall sr hmem with h | h <;> rw [herr] at h <;> exact SeedCallResult.noConfusion h
    cases hsync : (syncAllSeeds seeds IgnoreNotFound).2 with
    | error e2 => simp [handleDeletion, hsync]
    | ok u =>
      exact absurd ((syncAllSeeds_ok_iff seeds).mp (by cases u; exact hsync)) hnall

/-- C6 witness: seed "a" succeeds, seed "b" fails; the pass stops after
"b" with the wrapped error, and a failing deletion pass leaves the
project untouched. -/
theorem syncAllSeeds_first_error_witness :
    syncAllSeeds ([("a", SeedCallResult.ok), ("b", SeedCallResult.err "boom"), ("c", SeedCallResult.ok)])
        IgnoreNotFound =
      (["a", "b"], .error (wrapSeedErr "b" "boom")) ∧
    (handleDeletion ⟨"p", true, [SeedProjectCleanupFinalizer]⟩
        [("a", .ok), ("b", .err "boom"), ("c", .ok)] .ok).1 =
      ⟨"p", true, [SeedProjectCleanupFinalizer]⟩ := by
  constructor
  · have h := syncAllSeeds_first_error.1 SeedCallResult IgnoreNotFound
      [("a", SeedCallResult.ok)] "b" (SeedCallResult.err "boom")
      [("c", SeedCallResult.ok)] "boom"
      (by intro s hs; rcases List.mem_singleton.mp hs with rfl; rfl) rfl
    simpa using h
  · exact syncAllSeeds_first_error.2 ⟨"p", true, [SeedProjectCleanupFinalizer]⟩
      [("a", .ok), ("b", .err "boom"), ("c", .ok)] .ok
      ⟨("b", .err "boom"), by simp, "boom", rfl⟩

/-- C10: if listing Projects fails in the seed-watch dispatcher, the
handler returns an empty request list — a seed topology change then
enqueues zero Project reconciles and no error is propagated (the handler
has no error channel at all). -/
theorem enqueueAllProjects_list_error (e : String) :
    enqueueAllProjects (.error e) = [] := rfl

/-! ### Order properties of the Go string comparison -/

theorem charListLe_antisymm :
    ∀ as bs, charListLe as bs = true → charListLe bs as = true → as = bs := by
  intro as
  induction as with
  | nil =>
    intro bs _ h2
    cases bs with
    | nil => rfl
    | cons b tb => simp [charListLe] at h2
  | cons a ta ih =>
    intro bs h1 h2
    cases bs with
    | nil => simp [charListLe] at h1
    | cons b tb =>
      simp only [charListLe] at h1 h2
      by_cases hab : a.toNat < b.toNat
      · simp [hab, Nat.lt_asymm hab] at h2
      · by_cases hba : b.toNat < a.toNat
        · simp [hab, hba] at h1
        · have hch : a = b :=
            Char.eq_of_val_eq (UInt32.ext
              (Nat.le_antisymm (Nat.not_lt.mp hba) (Nat.not_lt.mp hab)))
          subst hch
          simp only [hab, if_false] at h1 h2
          rw [ih tb h1 h2]

theorem charListLe_total :
    ∀ as bs, charListLe as bs = true ∨ charListLe bs as = true := by
  intro as
  induction as with
  | nil => intro bs; left; rfl
  | cons a ta ih =>
    intro bs
    cases bs with
    | nil => right; rfl
    | cons b tb =>
      simp only [charListLe]
      by_cases hab : a.toNat < b.toNat
      · left; simp [hab]
      · by_cases hba : b.toNat < a.toNat
        · right; simp [hba]
        · rcases ih tb with h | h
          · left; simp [hab, hba, h]
          · right; simp [hab, hba, h]

theorem charListLe_trans :
    ∀ as bs cs, charListLe as bs = true → charListLe bs cs = true →
      charListLe as cs = true := by
  intro as
  induction as with
  | nil => intro bs cs _ _; rfl
  | cons a ta ih =>
    intro bs cs h1 h2
    cases bs with
    | nil => simp [charListLe] at h1
    | cons b tb =>
      cases cs with
      | nil => simp [charListLe] at h2
      | cons c tc =>
        simp only [charListLe] at h1 h2 ⊢
        by_cases hab : a.toNat < b.toNat
        · by_cases hbc : b.toNat < c.toNat
          · simp [Nat.lt_trans hab hbc]
          · by_cases hcb : c.toNat < b.toNat
            · simp [hbc, hcb] at h2
            · have hbc' : b.toNat = c.toNat :=
                Nat.le_antisymm (Nat.not_lt.mp hcb) (Nat.not_lt.mp hbc)
              simp [hbc' ▸ hab]
        · by_cases hba : b.toNat < a.toNat
          · simp [hab, hba] at h1
          · have hab' : a.toNat = b.toNat :=
              Nat.le_antisymm (Nat.not_lt.mp hba) (Nat.not_lt.mp hab)
            have h1' : charListLe ta tb = true := by simpa [hab, hba] using h1
            by_cases hbc : b.toNat < c.toNat
            · simp [hab' ▸ hbc]
            · by_cases hcb : c.toNat < b.toNat
              · simp [hbc, hcb] at h2
              · have hbc' : b.toNat = c.toNat :=
                  Nat.le_antisymm (Nat.not_lt.mp hcb) (Nat.not_lt.mp hbc)
                have h2' : charListLe tb tc = true := by simpa [hbc, hcb] using h2
                have hac1 : ¬ a.toNat < c.toNat := by
                  rw [hab', hbc']; exact Nat.lt_irrefl _
                have hac2 : ¬ c.toNat < a.toNat := by
                  rw [hab', hbc']; exact Nat.lt_irrefl _
                simp [hac1, hac2, ih tb tc h1' h2']

instance : IsTotal String goStrLeP := ⟨fun a b => charListLe_total a.data b.data⟩

instance : IsTrans String goStrLeP :=
  ⟨fun a b c h1 h2 => charListLe_trans a.data b.data c.data h1 h2⟩

instance : IsAntisymm String goStrLeP :=
  ⟨fun a b h1 h2 => by
    cases a; cases b
    exact congrArg String.mk (charListLe_antisymm _ _ h1 h2)⟩

/-- Sorting is invariant under permutation of the input: a sorted
permutation under a total antisymmetric order is unique. -/
theorem sortStrings_eq_of_perm (l1 l2 : List String) (h : l1.Perm l2) :
    sortStrings l1 = sortStrings l2 :=
  List.eq_of_perm_of_sorted
    ((List.perm_insertionSort goStrLeP l1).trans
      (h.trans (List.perm_insertionSort goStrLeP l2).symm))
    (List.sorted_insertionSort goStrLeP l1)
    (List.sorted_insertionSort goStrLeP l2)

/-! ### C4, C8 -/

/-- C4: for two maps holding the identical multiset of key/value entries
(modelled as two iteration orders, i.e. permuted association lists), both
checksum functions — render each entry as `key:value`, sort, concatenate,
CRC-32 (IEEE), format in decimal — return the identical string. -/
theorem checksum_order_independent (d1 d2 : List (String × String)) (h : d1.Perm d2) :
    getChecksumForMapStringString d1 = getChecksumForMapStringString d2 ∧
    getChecksumForMapStringByteSlice d1 = getChecksumForMapStringByteSlice d2 := by
  have hp : (d1.map (fun kv => kv.1 ++ ":" ++ kv.2)).Perm
      (d2.map (fun kv => kv.1 ++ ":" ++ kv.2)) := h.map _
  refine ⟨?_, ?_⟩ <;>
    simp only [getChecksumForMapStringString, getChecksumForMapStringByteSlice,
      getChecksumForStringSlice, sortStrings_eq_of_perm _ _ hp]

/-- C4 witness: the two iteration orders of `{a: x, b: y}` yield the same
checksum. -/
theorem checksum_order_independent_witness :
    (([("a", "x"), ("b", "y")] : List (String × String)).Perm [("b", "y"), ("a", "x")]) ∧
    getChecksumForMapStringString [("a", "x"), ("b", "y")] =
      getChecksumForMapStringString [("b", "y"), ("a", "x")] :=
  ⟨by decide, (checksum_order_independent _ _ (by decide)).1⟩

/-- C8: the maps `{a: x, b: y}` and `{a: xb:y}` hold different entry
multisets, yet both render (after sorting and separator-free
concatenation) to the byte string `a:xb:y` and therefore to the identical
checksum; consequently an ensure pass whose stored checksum annotation was
computed from the first map silently skips the write that would be needed
to reach the second. -/
theorem checksum_collision_example :
    getChecksumForMapStringString [("a", "x"), ("b", "y")] =
      getChecksumForMapStringString [("a", "xb:y")] ∧
    String.join (sortStrings (([("a", "x"), ("b", "y")] : List (String × String)).map
      (fun kv => kv.1 ++ ":" ++ kv.2))) = "a:xb:y" ∧
    String.join (sortStrings (([("a", "xb:y")] : List (String × String)).map
      (fun kv => kv.1 ++ ":" ++ kv.2))) = "a:xb:y" ∧
    ¬ (([("a", "x"), ("b", "y")] : List (String × String)).Perm [("a", "xb:y")]) ∧
    (ensureConfigMaps [fun _ => ⟨"cm", [("a", "xb:y")], []⟩]
      (Store.empty.set "cm"
        ⟨"cm", [("a", "x"), ("b", "y")],
          [(checksumAnnotationKey, getChecksumForMapStringString [("a", "x"), ("b", "y")])]⟩)).events
      = [] := by
  refine ⟨by decide, by decide, by decide, by decide, by decide⟩

/-! ### C5, C7: the legacy ordered-Secrets path -/

theorem lookupKV_setKV (l : List (String × String)) (k v : String) :
    lookupKV (setKV l k v) k = some v := by
  simp [lookupKV, setKV]

/-- C5: in the legacy ordered-Secrets loop, for an entry whose secret
already exists in the lister, a write is issued if and only if the stored
last-applied annotation differs from the freshly generated desired JSON,
and that write is a merge Patch whose body is the three-way merge of
(last-applied annotation as original, marshalled desired as modified,
marshalled existing as current) — never a full Update. -/
theorem ensureSecretsOp_existing_patch
    (deps : SecretsDeps) (store : Store KVObj) (name : String) (gen : SecretGen)
    (existing g : KVObj) (json : String)
    (hst : store name = some existing)
    (hgen : gen (some existing) = Except.ok (g, json)) :
    (ensureSecretsOp deps store name gen).events =
      (if lookupKV existing.annotations lastAppliedConfigAnnotationKey = some json then []
       else [Event.patch name (getPatch deps existing
         (setName (setAnn g lastAppliedConfigAnnotationKey json) name))]) ∧
    ∀ n, Event.update n ∉ (ensureSecretsOp deps store name gen).events := by
  by_cases hc : lookupKV existing.annotations lastAppliedConfigAnnotationKey = some json
  · simp [ensureSecretsOp, hst, hgen, hc]
  · simp [ensureSecretsOp, hst, hgen, hc]

/-- Concrete external collaborators for witnesses: marshal as the object's
name, a three-way patch that records its three inputs, patch application
that keeps the current object, and a lister where creations become
visible at every poll tick. -/
def marshalName (o : KVObj) : String := o.name

def concat3 (a b c : String) : String := a ++ "|" ++ b ++ "|" ++ c

def depsAlwaysVisible : SecretsDeps :=
  ⟨marshalName, concat3, fun o _ => o, fun _ _ => true⟩

/-- Same collaborators, but the lister never shows a created secret. -/
def depsNeverVisible : SecretsDeps :=
  ⟨marshalName, concat3, fun o _ => o, fun _ _ => false⟩

/-- Concrete secrets and generators used by witnesses. -/
def exSecret : KVObj := ⟨"s", [], [(lastAppliedConfigAnnotationKey, "OLD")]⟩

def genNew : SecretGen := fun _ => Except.ok (⟨"s", [], []⟩, "NEW")

def genS1 : SecretGen := fun _ => Except.ok (⟨"s1", [("d", "1")], []⟩, "J1")

def genS2 : SecretGen := fun _ => Except.ok (⟨"s2", [("d", "2")], []⟩, "J2")

/-- C5 witness: an existing secret whose stored annotation differs from
the fresh JSON receives exactly one merge Patch and no Update. -/
theorem ensureSecretsOp_existing_patch_witness :
    (Store.empty.set "s" exSecret) "s" = some exSecret ∧
    (ensureSecretsOp depsAlwaysVisible (Store.empty.set "s" exSecret) "s" genNew).events =
      (if lookupKV exSecret.annotations lastAppliedConfigAnnotationKey = some "NEW" then []
       else [Event.patch "s" (getPatch depsAlwaysVisible exSecret
         (setName (setAnn ⟨"s", [], []⟩ lastAppliedConfigAnnotationKey "NEW") "s"))]) :=
  ⟨rfl,
    (ensureSecretsOp_existing_patch depsAlwaysVisible (Store.empty.set "s" exSecret) "s"
      genNew exSecret ⟨"s", [], []⟩ "NEW" rfl rfl).1⟩

/-- Helper for C7: over a lister that misses every entry, with distinct
entry names, successful generators and successful polls, the legacy pass
creates the entries strictly in declared order. -/
theorem ensureSecrets_all_create (deps : SecretsDeps) :
    ∀ (ops : List (String × SecretGen)) (store : Store KVObj),
      (∀ op ∈ ops, store op.1 = none) →
      (ops.map Prod.fst).Nodup →
      (∀ op ∈ ops, ∃ g json, op.2 none = Except.ok (g, json)) →
      (∀ op ∈ ops, waitPoll 100 30000 (deps.visible op.1) = true) →
      (ensureSecrets deps ops store).events = ops.map (fun op => Event.create op.1) ∧
      (ensureSecrets deps ops store).res = Except.ok () := by
  intro ops
  induction ops with
  | nil => intro store _ _ _ _; exact ⟨rfl, rfl⟩
  | cons hd tl ih =>
    intro store hmiss hnodup hgens hpolls
    obtain ⟨name, gen⟩ := hd
    obtain ⟨g, json, hgen⟩ := hgens (name, gen) (List.mem_cons_self _ _)
    have hgen' : gen none = Except.ok (g, json) := hgen
    have hst : store name = none := hmiss (name, gen) (List.mem_cons_self _ _)
    have hpoll : waitPoll 100 30000 (deps.visible name) = true :=
      hpolls (name, gen) (List.mem_cons_self _ _)
    rw [List.map_cons, List.nodup_cons] at hnodup
    obtain ⟨hnin, hnd⟩ := hnodup
    have hmiss' : ∀ op ∈ tl,
        (store.set name (setName (setAnn g lastAppliedConfigAnnotationKey json) name)) op.1
          = none := by
      intro op hop
      have hne : op.1 ≠ name := by
        intro he
        have hmem : op.1 ∈ List.map Prod.fst tl := List.mem_map_of_mem Prod.fst hop
        rw [he] at hmem
        exact hnin hmem
      simpa [Store.set, hne] using hmiss op (List.mem_cons_of_mem _ hop)
    have ihr := ih (store.set name (setName (setAnn g lastAppliedConfigAnnotationKey json) name))
      hmiss' hnd
      (fun op hop => hgens op (List.mem_cons_of_mem _ hop))
      (fun op hop => hpolls op (List.mem_cons_of_mem _ hop))
    simp only [setName, setAnn] at ihr
    refine ⟨?_, ?_⟩ <;>
      simp [ensureSecrets, ensureSecretsOp, hst, hgen', hpoll, setName, setAnn,
        ihr.1, ihr.2]

/-- C7: the legacy ordered-Secrets pass processes entries strictly in
declared list order; after each Create it polls the cached lister at a
100 ms interval up to a 30 s timeout, and if the created secret never
becomes visible the pass stops with an error right after that create. -/
theorem ensureSecrets_ordered
    (deps : SecretsDeps) (ops : List (String × SecretGen)) (store : Store KVObj)
    (hmiss : ∀ op ∈ ops, store op.1 = none)
    (hnodup : (ops.map Prod.fst).Nodup)
    (hgens : ∀ op ∈ ops, ∃ g json, op.2 none = Except.ok (g, json)) :
    ((∀ op ∈ ops, waitPoll 100 30000 (deps.visible op.1) = true) →
      (ensureSecrets deps ops store).events = ops.map (fun op => Event.create op.1) ∧
      (ensureSecrets deps ops store).res = Except.ok ()) ∧
    (∀ name gen rest, ops = (name, gen) :: rest →
      waitPoll 100 30000 (deps.visible name) = false →
      (ensureSecrets deps ops store).events = [Event.create name] ∧
      (ensureSecrets deps ops store).res =
        Except.error ("failed waiting for secret " ++ name ++ " to exist in the lister")) := by
  constructor
  · intro hpolls
    exact ensureSecrets_all_create deps ops store hmiss hnodup hgens hpolls
  · intro name gen rest hops hpoll
    subst hops
    obtain ⟨g, json, hgen⟩ := hgens (name, gen) (List.mem_cons_self _ _)
    have hgen' : gen none = Except.ok (g, json) := hgen
    have hst : store name = none := hmiss (name, gen) (List.mem_cons_self _ _)
    refine ⟨?_, ?_⟩ <;>
      simp [ensureSecrets, ensureSecretsOp, hst, hgen', hpoll, setName, setAnn]

/-- C7 witness: two entries in declared order are created in that order
when polls succeed; with a never-visible lister the single entry's pass
creates it and then fails with the waiting error. -/
theorem ensureSecrets_ordered_witness :
    (ensureSecrets depsAlwaysVisible [("s1", genS1), ("s2", genS2)] Store.empty).events =
      [Event.create "s1", Event.create "s2"] ∧
    (ensureSecrets depsNeverVisible [("s1", genS1)] Store.empty).res =
      Except.error ("failed waiting for secret " ++ "s1" ++ " to exist in the lister") := by
  constructor
  · exact ((ensureSecrets_ordered depsAlwaysVisible [("s1", genS1), ("s2", genS2)]
      Store.empty
      (by intro op _; rfl) (by decide)
      (by intro op hop
          simp only [List.mem_cons, List.mem_singleton] at hop
          rcases hop with rfl | rfl | h
          · exact ⟨_, _, rfl⟩
          · exact ⟨_, _, rfl⟩
          · cases h)).1
      (by intro op _; rfl)).1
  · exact ((ensureSecrets_ordered depsNeverVisible [("s1", genS1)] Store.empty
      (by intro op _; rfl) (by decide)
      (by intro op hop
          simp only [List.mem_singleton] at hop
          subst hop
          exact ⟨_, _, rfl⟩)).2
      "s1" genS1 [] rfl (by decide)).2

/-! ### C3, C9: the immutable-selector guard -/

/-- C3: for Deployments and StatefulSets, if the freshly built object and
the existing one are not deep-equal and their selector match-labels
differ, the ensurer issues a foreground-cascading Delete for that object,
issues no Update in the same pass, and leaves the slot empty so that
recreation falls to a later pass. -/
theorem workload_selector_mismatch_delete
    (c : Option Workload → Workload) (rest : List (Option Workload → Workload))
    (store : Store Workload) (existing : Workload)
    (hst : store ((c none).name) = some existing)
    (hne : c (some existing) ≠ existing)
    (hsel : (c (some existing)).matchLabels ≠ existing.matchLabels) :
    ((ensureDeployments (c :: rest) store).events =
        [Event.deleteForeground ((c (some existing)).name)] ∧
      (∀ n, Event.update n ∉ (ensureDeployments (c :: rest) store).events) ∧
      (ensureDeployments (c :: rest) store).store ((c (some existing)).name) = none) ∧
    ((ensureStatefulSets (c :: rest) store).events =
        [Event.deleteForeground ((c (some existing)).name)] ∧
      (∀ n, Event.update n ∉ (ensureStatefulSets (c :: rest) store).events) ∧
      (ensureStatefulSets (c :: rest) store).store ((c (some existing)).name) = none) := by
  refine ⟨⟨?_, ?_, ?_⟩, ⟨?_, ?_, ?_⟩⟩ <;>
    simp [ensureDeployments, ensureStatefulSets, hst, hne, hsel, Store.del]

/-- Concrete workloads for the selector-mismatch witnesses. -/
def newSelW : Option Workload → Workload := fun _ => ⟨"dep", [("sel", "new")], "spec"⟩

def oldSelW : Workload := ⟨"dep", [("sel", "old")], "spec"⟩

def newSelW2 : Option Workload → Workload := fun _ => ⟨"sts", [("a", "2")], "x"⟩

def otherW : Option Workload → Workload := fun _ => ⟨"other", [("b", "1")], "y"⟩

def oldSelW2 : Workload := ⟨"sts", [("a", "3")], "x"⟩

/-- C3 witness: an existing Deployment with selector `sel: old` against a
creator desiring `sel: new` is delete-foregrounded and never updated. -/
theorem workload_selector_mismatch_delete_witness :
    (Store.empty.set "dep" oldSelW) ((newSelW none).name) = some oldSelW ∧
    (ensureDeployments [newSelW] (Store.empty.set "dep" oldSelW)).events =
      [Event.deleteForeground ((newSelW (some oldSelW)).name)] :=
  ⟨rfl,
    (workload_selector_mismatch_delete newSelW [] (Store.empty.set "dep" oldSelW)
      oldSelW rfl (by decide) (by decide)).1.1⟩

/-- C9: when the selector-mismatch Delete fires (Deletes always succeed in
this store model), the pass returns success immediately: its result does
not depend on the creators registered after the mismatched one, and no
error signals the skipped remainder. -/
theorem workload_mismatch_skips_remaining
    (c : Option Workload → Workload) (rest : List (Option Workload → Workload))
    (store : Store Workload) (existing : Workload)
    (hst : store ((c none).name) = some existing)
    (hne : c (some existing) ≠ existing)
    (hsel : (c (some existing)).matchLabels ≠ existing.matchLabels) :
    ((ensureDeployments (c :: rest) store).res = Except.ok () ∧
      ensureDeployments (c :: rest) store = ensureDeployments [c] store) ∧
    ((ensureStatefulSets (c :: rest) store).res = Except.ok () ∧
      ensureStatefulSets (c :: rest) store = ensureStatefulSets [c] store) := by
  refine ⟨⟨?_, ?_⟩, ⟨?_, ?_⟩⟩ <;>
    simp [ensureDeployments, ensureStatefulSets, hst, hne, hsel]

/-- C9 witness: with a second creator registered after the mismatched
one, the pass still returns success and behaves as if the remainder were
not registered. -/
theorem workload_mismatch_skips_remaining_witness :
    (ensureDeployments [newSelW2, otherW] (Store.empty.set "sts" oldSelW2)).res =
      Except.ok () ∧
    ensureDeployments [newSelW2, otherW] (Store.empty.set "sts" oldSelW2) =
      ensureDeployments [newSelW2] (Store.empty.set "sts" oldSelW2) :=
  (workload_mismatch_skips_remaining newSelW2 [otherW] (Store.empty.set "sts" oldSelW2)
    oldSelW2 rfl (by decide) (by decide)).1

/-! ### C2: idempotence of a second ensure pass -/

/-- A creator is stable when rebuilding from its own output reproduces
that output.  (Determinism alone — being a function — does not give
this.) -/
def Stable {α : Type} (c : Option α → α) : Prop :=
  ∀ x, c (some (c x)) = c x

/-- A creator always names its object the same way. -/
def NameFixed {α : Type} (nm : α → String) (c : Option α → α) : Prop :=
  ∀ x, nm (c x) = nm (c none)

/-- The store slot of a structural creator holds a fixed point of the
creator. -/
def goodSlot {α : Type} (nm : α → String) (c : Option α → α) (s : Store α) : Prop :=
  ∃ d, s (nm (c none)) = some d ∧ c (some d) = d

theorem ensureServices_untouched :
    ∀ (creators : List (Option KObj → KObj)) (store : Store KObj) (n : String),
      (∀ c ∈ creators, NameFixed KObj.name c) →
      (∀ c ∈ creators, (c none).name ≠ n) →
      (ensureServices creators store).store n = store n := by
  intro creators
  induction creators with
  | nil => intro store n _ _; rfl
  | cons c rest ih =>
    intro store n hname hne
    have hcn : (c none).name ≠ n := hne c (List.mem_cons_self _ _)
    have hname' := fun c' h => hname c' (List.mem_cons_of_mem _ h)
    have hne' := fun c' h => hne c' (List.mem_cons_of_mem _ h)
    cases hst : store ((c none).name) with
    | none =>
      simp only [ensureServices, hst]
      rw [ih (store.set ((c none).name) (c none)) n hname' hne']
      simp [Store.set, Ne.symm hcn]
    | some e =>
      by_cases hde : c (some e) = e
      · simp only [ensureServices, hst, if_pos hde]
        exact ih store n hname' hne'
      · simp only [ensureServices, hst, if_neg hde]
        rw [ih (store.set ((c (some e)).name) (c (some e))) n hname' hne']
        have hn : (c (some e)).name = (c none).name := hname c (List.mem_cons_self _ _) (some e)
        rw [hn]
        simp [Store.set, Ne.symm hcn]

theorem ensureServices_good :
    ∀ (creators : List (Option KObj → KObj)) (store : Store KObj),
      (∀ c ∈ creators, NameFixed KObj.name c) →
      (∀ c ∈ creators, Stable c) →
      ((creators.map (fun c => (c none).name)).Nodup) →
      ∀ c ∈ creators, goodSlot KObj.name c (ensureServices creators store).store := by
  intro creators
  induction creators with
  | nil => intro store _ _ _ c hc; cases hc
  | cons c0 rest ih =>
    intro store hname hstable hnodup c hc
    rw [List.map_cons, List.nodup_cons] at hnodup
    obtain ⟨hnin, hnd⟩ := hnodup
    have hname' := fun c' h => hname c' (List.mem_cons_of_mem _ h)
    have hstable' := fun c' h => hstable c' (List.mem_cons_of_mem _ h)
    have hne : ∀ c' ∈ rest, (c' none).name ≠ (c0 none).name := by
      intro c' h he
      have hmem : (c' none).name ∈ rest.map (fun c => (c none).name) :=
        List.mem_map_of_mem _ h
      rw [he] at hmem
      exact hnin hmem
    rcases List.mem_cons.mp hc with rfl | hcr
    · cases hst : store ((c none).name) with
      | none =>
        simp only [ensureServices, hst]
        refine ⟨c none, ?_, hstable c (List.mem_cons_self _ _) none⟩
        rw [ensureServices_untouched rest _ _ hname' hne]
        simp [Store.set]
      | some e =>
        by_cases hde : c (some e) = e
        · simp only [ensureServices, hst, if_pos hde]
          refine ⟨e, ?_, hde⟩
          rw [ensureServices_untouched rest _ _ hname' hne]
          exact hst
        · simp only [ensureServices, hst, if_neg hde]
          refine ⟨c (some e), ?_, hstable c (List.mem_cons_self _ _) (some e)⟩
          rw [ensureServices_untouched rest _ _ hname' hne]
          have hn : (c (some e)).name = (c none).name :=
            hname c (List.mem_cons_self _ _) (some e)
          rw [hn]
          simp [Store.set]
    · cases hst : store ((c0 none).name) with
      | none =>
        simp only [ensureServices, hst]
        exact ih _ hname' hstable' hnd c hcr
      | some e =>
        by_cases hde : c0 (some e) = e
        · simp only [ensureServices, hst, if_pos hde]
          exact ih store hname' hstable' hnd c hcr
        · simp only [ensureServices, hst, if_neg hde]
          exact ih _ hname' hstable' hnd c hcr

theorem ensureServices_skip :
    ∀ (creators : List (Option KObj → KObj)) (store : Store KObj),
      (∀ c ∈ creators, goodSlot KObj.name c store) →
      ensureServices creators store = ⟨store, [], Except.ok ()⟩ := by
  intro creators
  induction creators with
  | nil => intro store _; rfl
  | cons c rest ih =>
    intro store hgood
    obtain ⟨d, hsd, hfix⟩ := hgood c (List.mem_cons_self _ _)
    simp only [ensureServices, hsd, if_pos hfix]
    exact ih store (fun c' h => hgood c' (List.mem_cons_of_mem _ h))

theorem ensureDeployments_untouched :
    ∀ (creators : List (Option Workload → Workload)) (store : Store Workload) (n : String),
      (∀ c ∈ creators, NameFixed Workload.name c) →
      (∀ c ∈ creators, (c none).name ≠ n) →
      (ensureDeployments creators store).store n = store n := by
  intro creators
  induction creators with
  | nil => intro store n _ _; rfl
  | cons c rest ih =>
    intro store n hname hne
    have hcn : (c none).name ≠ n := hne c (List.mem_cons_self _ _)
    have hname' := fun c' h => hname c' (List.mem_cons_of_mem _ h)
    have hne' := fun c' h => hne c' (List.mem_cons_of_mem _ h)
    cases hst : store ((c none).name) with
    | none =>
      simp only [ensureDeployments, hst]
      rw [ih (store.set ((c none).name) (c none)) n hname' hne']
      simp [Store.set, Ne.symm hcn]
    | some e =>
      by_cases hde : c (some e) = e
      · simp only [ensureDeployments, hst, if_pos hde]
        exact ih store n hname' hne'
      · by_cases hsel : (c (some e)).matchLabels ≠ e.matchLabels
        · simp only [ensureDeployments, hst, if_neg hde, if_pos hsel]
          have hne2 : (c (some e)).name = (c none).name := hname c (List.mem_cons_self _ _) (some e)
          rw [hne2]
          simp [Store.del, Ne.symm hcn]
        · simp only [ensureDeployments, hst, if_neg hde, if_neg hsel]
          rw [ih (store.set ((c (some e)).name) (c (some e))) n hname' hne']
          have hne2 : (c (some e)).name = (c none).name := hname c (List.mem_cons_self _ _) (some e)
          rw [hne2]
          simp [Store.set, Ne.symm hcn]

theorem ensureDeployments_good :
    ∀ (creators : List (Option Workload → Workload)) (store : Store Workload),
      (∀ c ∈ creators, NameFixed Workload.name c) →
      (∀ c ∈ creators, Stable c) →
      ((creators.map (fun c => (c none).name)).Nodup) →
      (∀ n, Event.deleteForeground n ∉ (ensureDeployments creators store).events) →
      ∀ c ∈ creators, goodSlot Workload.name c (ensureDeployments creators store).store := by
  intro creators
  induction creators with
  | nil => intro store _ _ _ _ c hc; cases hc
  | cons c0 rest ih =>
    intro store hname hstable hnodup hnodel c hc
    rw [List.map_cons, List.nodup_cons] at hnodup
    obtain ⟨hnin, hnd⟩ := hnodup
    have hname' := fun c' h => hname c' (List.mem_cons_of_mem _ h)
    have hstable' := fun c' h => hstable c' (List.mem_cons_of_mem _ h)
    have hne : ∀ c' ∈ rest, (c' none).name ≠ (c0 none).name := by
      intro c' h he
      have hmem : (c' none).name ∈ rest.map (fun c => (c none).name) :=
        List.mem_map_of_mem _ h
      rw [he] at hmem
      exact hnin hmem
    rcases List.mem_cons.mp hc with rfl | hcr
    · cases hst : store ((c none).name) with
      | none =>
        simp only [ensureDeployments, hst] at hnodel ⊢
        refine ⟨c none, ?_, hstable c (List.mem_cons_self _ _) none⟩
        rw [ensureDeployments_untouched rest _ _ hname' hne]
        simp [Store.set]
      | some e =>
        by_cases hde : c (some e) = e
        · simp only [ensureDeployments, hst, if_pos hde] at hnodel ⊢
          refine ⟨e, ?_, hde⟩
          rw [ensureDeployments_untouched rest _ _ hname' hne]
          exact hst
        · by_cases hsel : (c (some e)).matchLabels ≠ e.matchLabels
          · exfalso
            simp only [ensureDeployments, hst, if_neg hde, if_pos hsel] at hnodel
            exact hnodel ((c (some e)).name) (List.mem_singleton.mpr rfl)
          · simp only [ensureDeployments, hst, if_neg hde, if_neg hsel] at hnodel ⊢
            refine ⟨c (some e), ?_, hstable c (List.mem_cons_self _ _) (some e)⟩
            rw [ensureDeployments_untouched rest _ _ hname' hne]
            have hn : (c (some e)).name = (c none).name :=
              hname c (List.mem_cons_self _ _) (some e)
            rw [hn]
            simp [Store.set]
    · cases hst : store ((c0 none).name) with
      | none =>
        simp only [ensureDeployments, hst] at hnodel ⊢
        exact ih _ hname' hstable' hnd
          (fun n h => hnodel n (List.mem_cons_of_mem _ h)) c hcr
      | some e =>
        by_cases hde : c0 (some e) = e
        · simp only [ensureDeployments, hst, if_pos hde] at hnodel ⊢
          exact ih store hname' hstable' hnd hnodel c hcr
        · by_cases hsel : (c0 (some e)).matchLabels ≠ e.matchLabels
          · exfalso
            simp only [ensureDeployments, hst, if_neg hde, if_pos hsel] at hnodel
            exact hnodel ((c0 (some e)).name) (List.mem_singleton.mpr rfl)
          · simp only [ensureDeployments, hst, if_neg hde, if_neg hsel] at hnodel ⊢
            exact ih _ hname' hstable' hnd
              (fun n h => hnodel n (List.mem_cons_of_mem _ h)) c hcr

theorem ensureDeployments_skip :
    ∀ (creators : List (Option Workload → Workload)) (store : Store Workload),
      (∀ c ∈ creators, goodSlot Workload.name c store) →
      ensureDeployments creators store = ⟨store, [], Except.ok ()⟩ := by
  intro creators
  induction creators with
  | nil => intro store _; rfl
  | cons c rest ih =>
    intro store hgood
    obtain ⟨d, hsd, hfix⟩ := hgood c (List.mem_cons_self _ _)
    simp only [ensureDeployments, hsd, if_pos hfix]
    exact ih store (fun c' h => hgood c' (List.mem_cons_of_mem _ h))

/-- A (map key, creator) pair whose creator always names the object after
the key. -/
def KeyNamed (p : String × (Option KVObj → KVObj)) : Prop :=
  ∀ x, (p.2 x).name = p.1

/-- Stamp the checksum annotation the way `ensureSecretsV2` does. -/
def withChecksumSecret (se : KVObj) : KVObj :=
  setAnn se checksumAnnotationKey (getChecksumForMapStringByteSlice se.data)

/-- A checksum-gated creator is data-stable when rebuilding from its own
stored (checksum-annotated) output reproduces the same data payload. -/
def DataStable (c : Option KVObj → KVObj) : Prop :=
  ∀ x, (c (some (withChecksumSecret (c x)))).data = (c x).data

/-- The store slot of a checksum-gated creator carries a checksum
annotation equal to the checksum of the payload the creator would now
build. -/
def goodCk (p : String × (Option KVObj → KVObj)) (s : Store KVObj) : Prop :=
  ∃ e, s p.1 = some e ∧
    lookupKV e.annotations checksumAnnotationKey =
      some (getChecksumForMapStringByteSlice ((p.2 (some e)).data))

theorem ensureSecretsV2_untouched :
    ∀ (creators : List (String × (Option KVObj → KVObj))) (store : Store KVObj) (n : String),
      (∀ p ∈ creators, KeyNamed p) →
      (∀ p ∈ creators, p.1 ≠ n) →
      (ensureSecretsV2 creators store).store n = store n := by
  intro creators
  induction creators with
  | nil => intro store n _ _; rfl
  | cons hd rest ih =>
    intro store n hkey hne
    obtain ⟨name, create⟩ := hd
    have hk : ∀ x, (create x).name = name := hkey (name, create) (List.mem_cons_self _ _)
    have hn : name ≠ n := hne (name, create) (List.mem_cons_self _ _)
    have hkey' := fun p h => hkey p (List.mem_cons_of_mem _ h)
    have hne' := fun p h => hne p (List.mem_cons_of_mem _ h)
    cases hst : store name with
    | none =>
      simp only [ensureSecretsV2, hst]
      rw [ih _ n hkey' hne']
      simp [setAnn, Store.set, hk none, Ne.symm hn]
    | some e =>
      simp only [ensureSecretsV2, hst]
      split
      · exact ih store n hkey' hne'
      · rw [ih _ n hkey' hne']
        simp [setAnn, Store.set, hk (some e), Ne.symm hn]

theorem ensureSecretsV2_good :
    ∀ (creators : List (String × (Option KVObj → KVObj))) (store : Store KVObj),
      (∀ p ∈ creators, KeyNamed p) →
      (∀ p ∈ creators, DataStable p.2) →
      ((creators.map Prod.fst).Nodup) →
      ∀ p ∈ creators, goodCk p (ensureSecretsV2 creators store).store := by
  intro creators
  induction creators with
  | nil => intro store _ _ _ p hp; cases hp
  | cons hd rest ih =>
    intro store hkey hdata hnodup p hp
    obtain ⟨name, create⟩ := hd
    have hk : ∀ x, (create x).name = name := hkey (name, create) (List.mem_cons_self _ _)
    have hd0 : DataStable create := hdata (name, create) (List.mem_cons_self _ _)
    rw [List.map_cons, List.nodup_cons] at hnodup
    obtain ⟨hnin, hnd⟩ := hnodup
    have hkey' := fun q h => hkey q (List.mem_cons_of_mem _ h)
    have hdata' := fun q h => hdata q (List.mem_cons_of_mem _ h)
    have hne : ∀ q ∈ rest, q.1 ≠ name := by
      intro q h he
      have hmem : q.1 ∈ rest.map Prod.fst := List.mem_map_of_mem Prod.fst h
      rw [he] at hmem
      exact hnin hmem
    rcases List.mem_cons.mp hp with rfl | hpr
    · cases hst : store name with
      | none =>
        simp only [ensureSecretsV2, hst]
        refine ⟨withChecksumSecret (create none), ?_, ?_⟩
        · rw [ensureSecretsV2_untouched rest _ _ hkey' hne]
          simp [withChecksumSecret, setAnn, Store.set, hk none]
        · have hstab := hd0 none
          simp only [withChecksumSecret, setAnn] at hstab
          simp only [withChecksumSecret, setAnn, lookupKV_setKV]
          rw [hstab]
      | some e =>
        simp only [ensureSecretsV2, hst]
        split
        · next hcond =>
          refine ⟨e, ?_, ?_⟩
          · rw [ensureSecretsV2_untouched rest _ _ hkey' hne]
            exact hst
          · rw [hcond]
            simp [setAnn, lookupKV_setKV]
        · next hcond =>
          refine ⟨withChecksumSecret (create (some e)), ?_, ?_⟩
          · rw [ensureSecretsV2_untouched rest _ _ hkey' hne]
            simp [withChecksumSecret, setAnn, Store.set, hk (some e)]
          · have hstab := hd0 (some e)
            simp only [withChecksumSecret, setAnn] at hstab
            simp only [withChecksumSecret, setAnn, lookupKV_setKV]
            rw [hstab]
    · cases hst : store name with
      | none =>
        simp only [ensureSecretsV2, hst]
        exact ih _ hkey' hdata' hnd p hpr
      | some e =>
        simp only [ensureSecretsV2, hst]
        split
        · exact ih store hkey' hdata' hnd p hpr
        · exact ih _ hkey' hdata' hnd p hpr

theorem ensureSecretsV2_skip :
    ∀ (creators : List (String × (Option KVObj → KVObj))) (store : Store KVObj),
      (∀ p ∈ creators, goodCk p store) →
      ensureSecretsV2 creators store = ⟨store, [], Except.ok ()⟩ := by
  intro creators
  induction creators with
  | nil => intro store _; rfl
  | cons hd rest ih =>
    intro store hgood
    obtain ⟨name, create⟩ := hd
    obtain ⟨e, hse, hann⟩ := hgood (name, create) (List.mem_cons_self _ _)
    simp only [ensureSecretsV2, hse]
    split
    · exact ih store (fun q h => hgood q (List.mem_cons_of_mem _ h))
    · next hcond =>
      exfalso
      apply hcond
      rw [hann]
      simp [setAnn, lookupKV_setKV]

/-- A legacy generator that always succeeds. -/
def GenTotal (g : SecretGen) : Prop :=
  ∀ x, ∃ se json, g x = Except.ok (se, json)

/-- A legacy (name, generator) pair is stable when regenerating from its
own stored output (annotated with the last-applied JSON and renamed to the
entry name) reproduces the same desired JSON. -/
def GenStable (p : String × SecretGen) : Prop :=
  ∀ x se json, p.2 x = Except.ok (se, json) →
    ∃ se2, p.2 (some (setName (setAnn se lastAppliedConfigAnnotationKey json) p.1)) =
      Except.ok (se2, json)

/-- The store slot of a legacy entry carries a last-applied annotation
equal to the JSON the generator would now produce. -/
def goodLegacy (p : String × SecretGen) (s : Store KVObj) : Prop :=
  ∃ e, s p.1 = some e ∧ ∃ se json, p.2 (some e) = Except.ok (se, json) ∧
    lookupKV e.annotations lastAppliedConfigAnnotationKey = some json

theorem ensureSecretsOp_untouched
    (deps : SecretsDeps) (store : Store KVObj) (name : String) (gen : SecretGen)
    (n : String) (h : name ≠ n) :
    (ensureSecretsOp deps store name gen).store n = store n := by
  cases hst : store name with
  | none =>
    cases hgen : gen none with
    | error e => simp [ensureSecretsOp, hst, hgen]
    | ok p =>
      obtain ⟨g, json⟩ := p
      simp only [ensureSecretsOp, hst, hgen]
      split <;> simp [setName, setAnn, Store.set, Ne.symm h]
  | some e =>
    cases hgen : gen (some e) with
    | error e2 => simp [ensureSecretsOp, hst, hgen]
    | ok p =>
      obtain ⟨g, json⟩ := p
      simp only [ensureSecretsOp, hst, hgen]
      split <;> simp [Store.set, Ne.symm h]

theorem ensureSecrets_store_untouched (deps : SecretsDeps) :
    ∀ (ops : List (String × SecretGen)) (store : Store KVObj) (n : String),
      (∀ op ∈ ops, op.1 ≠ n) →
      (ensureSecrets deps ops store).store n = store n := by
  intro ops
  induction ops with
  | nil => intro store n _; rfl
  | cons hd rest ih =>
    intro store n hne
    obtain ⟨name, gen⟩ := hd
    have hstep : (ensureSecretsOp deps store name gen).store n = store n :=
      ensureSecretsOp_untouched deps store name gen n
        (hne (name, gen) (List.mem_cons_self _ _))
    cases hres : (ensureSecretsOp deps store name gen).res with
    | error e =>
      simp only [ensureSecrets, hres]
      exact hstep
    | ok u =>
      cases u
      simp only [ensureSecrets, hres]
      rw [ih (ensureSecretsOp deps store name gen).store n
        (fun op hop => hne op (List.mem_cons_of_mem _ hop))]
      exact hstep

theorem ensureSecrets_good (deps : SecretsDeps) :
    ∀ (ops : List (String × SecretGen)) (store : Store KVObj),
      (∀ op ∈ ops, store op.1 = none) →
      ((ops.map Prod.fst).Nodup) →
      (∀ op ∈ ops, GenTotal op.2) →
      (∀ op ∈ ops, GenStable op) →
      (∀ op ∈ ops, waitPoll 100 30000 (deps.visible op.1) = true) →
      ∀ op ∈ ops, goodLegacy op (ensureSecrets deps ops store).store := by
  intro ops
  induction ops with
  | nil => intro store _ _ _ _ _ op hop; cases hop
  | cons hd rest ih =>
    intro store hmiss hnodup htotal hstable hpolls op hop
    obtain ⟨name, gen⟩ := hd
    obtain ⟨g, json, hgen⟩ := htotal (name, gen) (List.mem_cons_self _ _) none
    have hgen' : gen none = Except.ok (g, json) := hgen
    have hst : store name = none := hmiss (name, gen) (List.mem_cons_self _ _)
    have hpoll : waitPoll 100 30000 (deps.visible name) = true :=
      hpolls (name, gen) (List.mem_cons_self _ _)
    rw [List.map_cons, List.nodup_cons] at hnodup
    obtain ⟨hnin, hnd⟩ := hnodup
    have hne : ∀ q ∈ rest, q.1 ≠ name := by
      intro q h he
      have hmem : q.1 ∈ rest.map Prod.fst := List.mem_map_of_mem Prod.fst h
      rw [he] at hmem
      exact hnin hmem
    have hmiss' : ∀ q ∈ rest,
        (store.set name (setName (setAnn g lastAppliedConfigAnnotationKey json) name)) q.1
          = none := by
      intro q h
      simpa [Store.set, hne q h] using hmiss q (List.mem_cons_of_mem _ h)
    rcases List.mem_cons.mp hop with rfl | hopr
    · refine ⟨setName (setAnn g lastAppliedConfigAnnotationKey json) name, ?_, ?_⟩
      · simp only [ensureSecrets, ensureSecretsOp, hst, hgen', hpoll, if_pos, setName, setAnn]
        rw [ensureSecrets_store_untouched deps rest _ name hne]
        simp [Store.set]
      · obtain ⟨se2, hse2⟩ := hstable (name, gen) (List.mem_cons_self _ _) none g json hgen'
        exact ⟨se2, json, hse2, by simp [setName, setAnn, lookupKV_setKV]⟩
    · simp only [ensureSecrets, ensureSecretsOp, hst, hgen', hpoll, if_pos, setName, setAnn]
      have := ih (store.set name (setName (setAnn g lastAppliedConfigAnnotationKey json) name))
        hmiss' hnd
        (fun q h => htotal q (List.mem_cons_of_mem _ h))
        (fun q h => hstable q (List.mem_cons_of_mem _ h))
        (fun q h => hpolls q (List.mem_cons_of_mem _ h))
        op hopr
      simpa [setName, setAnn] using this

theorem ensureSecrets_skip (deps : SecretsDeps) :
    ∀ (ops : List (String × SecretGen)) (store : Store KVObj),
      (∀ op ∈ ops, goodLegacy op store) →
      ensureSecrets deps ops store = ⟨store, [], Except.ok ()⟩ := by
  intro ops
  induction ops with
  | nil => intro store _; rfl
  | cons hd rest ih =>
    intro store hgood
    obtain ⟨name, gen⟩ := hd
    obtain ⟨e, hse, se, json, hgen, hann⟩ := hgood (name, gen) (List.mem_cons_self _ _)
    have hgen' : gen (some e) = Except.ok (se, json) := hgen
    simp only [ensureSecrets, ensureSecretsOp, hse, hgen', hann, if_pos]
    exact ih store (fun q h => hgood q (List.mem_cons_of_mem _ h))

/-- A deterministic creator for which the original C2 fails: it is a pure
function (hence deterministic — same input, same output), but the object
it builds from its own stored output differs from that output. -/
def flipCreator : Option KObj → KObj
  | none => ⟨"svc", "p"⟩
  | some _ => ⟨"svc", "q"⟩

/-- C2 counterexample: with the deterministic creator `flipCreator`, the
first ensure pass over an empty store issues one Create and the second
pass — with no external change in between — issues an Update, i.e. a
write.  Determinism of the Creators alone does not make the second pass
write-free. -/
theorem second_pass_write_counterexample :
    (ensureServices [flipCreator] Store.empty).events = [Event.create "svc"] ∧
    (ensureServices [flipCreator] (ensureServices [flipCreator] Store.empty).store).events
      = [Event.update "svc"] := by
  exact ⟨rfl, rfl⟩

/-- C2 (amended): a second ensure pass with no external change issues zero
writes (no Create, Update or Patch) provided the Creators are not merely
deterministic but stable — rebuilding from their own stored output
reproduces that output (structurally for structural kinds, with the same
data payload for checksum-gated kinds, and with the same desired JSON for
the legacy ordered-Secrets path), each creator keeps a fixed distinct
name — and, for the selector-guarded kinds, the first pass issued no
selector-mismatch Delete (after such a Delete the next pass performs the
deferred Create by design). -/
theorem second_pass_zero_writes :
    (∀ (creators : List (Option KObj → KObj)) (store : Store KObj),
      (∀ c ∈ creators, NameFixed KObj.name c) →
      (∀ c ∈ creators, Stable c) →
      ((creators.map (fun c => (c none).name)).Nodup) →
      (ensureServices creators ((ensureServices creators store).store)).events = []) ∧
    (∀ (creators : List (Option Workload → Workload)) (store : Store Workload),
      (∀ c ∈ creators, NameFixed Workload.name c) →
      (∀ c ∈ creators, Stable c) →
      ((creators.map (fun c => (c none).name)).Nodup) →
      (∀ n, Event.deleteForeground n ∉ (ensureDeployments creators store).events) →
      (ensureDeployments creators ((ensureDeployments creators store).store)).events = []) ∧
    (∀ (creators : List (String × (Option KVObj → KVObj))) (store : Store KVObj),
      (∀ p ∈ creators, KeyNamed p) →
      (∀ p ∈ creators, DataStable p.2) →
      ((creators.map Prod.fst).Nodup) →
      (ensureSecretsV2 creators ((ensureSecretsV2 creators store).store)).events = []) ∧
    (∀ (deps : SecretsDeps) (ops : List (String × SecretGen)) (store : Store KVObj),
      (∀ op ∈ ops, store op.1 = none) →
      ((ops.map Prod.fst).Nodup) →
      (∀ op ∈ ops, GenTotal op.2) →
      (∀ op ∈ ops, GenStable op) →
      (∀ op ∈ ops, waitPoll 100 30000 (deps.visible op.1) = true) →
      (ensureSecrets deps ops ((ensureSecrets deps ops store).store)).events = []) := by
  refine ⟨?_, ?_, ?_, ?_⟩
  · intro creators store hname hstable hnodup
    rw [ensureServices_skip creators _
      (ensureServices_good creators store hname hstable hnodup)]
  · intro creators store hname hstable hnodup hnodel
    rw [ensureDeployments_skip creators _
      (ensureDeployments_good creators store hname hstable hnodup hnodel)]
  · intro creators store hkey hdata hnodup
    rw [ensureSecretsV2_skip creators _
      (ensureSecretsV2_good creators store hkey hdata hnodup)]
  · intro deps ops store hmiss hnodup htotal hstable hpolls
    rw [ensureSecrets_skip deps ops _
      (ensureSecrets_good deps ops store hmiss hnodup htotal hstable hpolls)]

/-- Concrete stable creators for the C2 witness. -/
def constK : Option KObj → KObj := fun _ => ⟨"svc", "p"⟩

def constW : Option Workload → Workload := fun _ => ⟨"dep", [("a", "1")], "s"⟩

def constKV : Option KVObj → KVObj := fun _ => ⟨"sec", [("k", "v")], []⟩

def genConst : SecretGen := fun _ => Except.ok (⟨"sx", [("d", "1")], []⟩, "JSON")

/-- C2 witness: with stable constant creators the second pass of every
kind issues zero writes. -/
theorem second_pass_zero_writes_witness :
    (ensureServices [constK] ((ensureServices [constK] Store.empty).store)).events = [] ∧
    (ensureDeployments [constW] ((ensureDeployments [constW] Store.empty).store)).events = [] ∧
    (ensureSecretsV2 [("sec", constKV)]
      ((ensureSecretsV2 [("sec", constKV)] Store.empty).store)).events = [] ∧
    (ensureSecrets depsAlwaysVisible [("sx", genConst)]
      ((ensureSecrets depsAlwaysVisible [("sx", genConst)] Store.empty).store)).events = [] := by
  refine ⟨?_, ?_, ?_, ?_⟩
  · exact second_pass_zero_writes.1 [constK] Store.empty
      (by intro c hc x; rcases List.mem_singleton.mp hc with rfl; rfl)
      (by intro c hc x; rcases List.mem_singleton.mp hc with rfl; rfl)
      (by decide)
  · exact second_pass_zero_writes.2.1 [constW] Store.empty
      (by intro c hc x; rcases List.mem_singleton.mp hc with rfl; rfl)
      (by intro c hc x; rcases List.mem_singleton.mp hc with rfl; rfl)
      (by decide)
      (by intro n hn
          have hev : (ensureDeployments [constW] Store.empty).events =
            [Event.create "dep"] := rfl
          rw [hev] at hn
          exact Event.noConfusion (List.mem_singleton.mp hn))
  · exact second_pass_zero_writes.2.2.1 [("sec", constKV)] Store.empty
      (by intro p hp x; rcases List.mem_singleton.mp hp with rfl; rfl)
      (by intro p hp x; rcases List.mem_singleton.mp hp with rfl; rfl)
      (by decide)
  · exact second_pass_zero_writes.2.2.2 depsAlwaysVisible [("sx", genConst)] Store.empty
      (by intro op _; rfl)
      (by decide)
      (by intro op hop
          rcases List.mem_singleton.mp hop with rfl
          intro x
          exact ⟨_, _, rfl⟩)
      (by intro op hop
          rcases List.mem_singleton.mp hop with rfl
          intro x se json h
          simp only [genConst, Except.ok.injEq, Prod.mk.injEq] at h
          obtain ⟨h1, h2⟩ := h
          subst h2
          exact ⟨_, rfl⟩)
      (by intro op _; rfl)

end Kubermatic
